import Mathlib

/-!
Verification development for the BiotechScanner retrieval core
(`src/rag/document_processor.py`, `src/rag/faiss_index.py`,
`src/rag/rag_search.py`).

The Python code is shallowly embedded: text is `List Char` (one element per
Python code point), FAISS distances are modelled as rationals, the FAISS ANN
structure is abstracted to its observable fields (`ntotal`, `is_trained`)
plus an external search oracle supplying the `(distance, index)` rows that
`self.index.search` would return, and the file system is an association list
from path to decompressed file content (gzip decompression is absorbed into
the map).  Python dicts become association lists in insertion order.
Wall-clock metadata (`indexed_at`, produced by `datetime.utcnow()`) carries
no information relevant to any claim and is omitted from the stored
metadata record.
-/

/-! ### Python-style text primitives -/

/-- Python regex `\s` / `str.strip` whitespace, restricted to the ASCII
whitespace characters that occur in SEC filing text. -/
def isPySpace (c : Char) : Bool :=
  c == ' ' || c == '\t' || c == '\n' || c == '\r' || c == '\x0b' || c == '\x0c'

/-- ASCII letter, the `[a-zA-Z]` class. -/
def isAsciiLetter (c : Char) : Bool :=
  ('a' ≤ c && c ≤ 'z') || ('A' ≤ c && c ≤ 'Z')

/-- ASCII lowercase, the `[a-z]` class. -/
def isLowerAZ (c : Char) : Bool := 'a' ≤ c && c ≤ 'z'

/-- ASCII uppercase, the `[A-Z]` class. -/
def isUpperAZ (c : Char) : Bool := 'A' ≤ c && c ≤ 'Z'

/-- ASCII digit, the `\d` class. -/
def isDigitCh (c : Char) : Bool := '0' ≤ c && c ≤ '9'

/-- `t[a:b]` for natural indices (already clamped). -/
def sliceN (t : List Char) (a b : Nat) : List Char := (t.take b).drop a

/-- Clamp one Python slice index: negative indices count from the end and
are clamped to 0, positive ones are clamped to the length. -/
def pyIdxClamp (n : Nat) (i : Int) : Nat :=
  if i < 0 then (i + n).toNat else min i.toNat n

/-- Python slicing `t[a:b]` with int indices. -/
def pySlice (t : List Char) (a b : Int) : List Char :=
  sliceN t (pyIdxClamp t.length a) (pyIdxClamp t.length b)

/-- Exact literal match of `pat` against the front of `t`. -/
def litStarts : List Char → List Char → Bool
  | [], _ => true
  | _ :: _, [] => false
  | a :: as, b :: bs => a == b && litStarts as bs

/-- Case-insensitive literal match (regex `re.IGNORECASE` on ASCII). -/
def ciStarts : List Char → List Char → Bool
  | [], _ => true
  | _ :: _, [] => false
  | a :: as, b :: bs => a.toLower == b.toLower && ciStarts as bs

/-- `str.strip()`: drop leading and trailing whitespace. -/
def stripL (t : List Char) : List Char :=
  ((t.dropWhile fun c => isPySpace c).reverse.dropWhile fun c => isPySpace c).reverse

/-- `str.lower()` on ASCII content. -/
def toLowerL (t : List Char) : List Char := t.map Char.toLower

/-- Contiguous-substring test, Python `sub in t`. -/
def substrIn (sub t : List Char) : Bool :=
  match t with
  | [] => litStarts sub []
  | _ :: rest => litStarts sub t || substrIn sub rest

/-- `str.split()` with no separator: split on whitespace runs, dropping
empty pieces. -/
def splitWsAux (cur : List Char) : List Char → List (List Char)
  | [] => if cur.isEmpty then [] else [cur.reverse]
  | c :: rest =>
    if isPySpace c then
      if cur.isEmpty then splitWsAux [] rest
      else cur.reverse :: splitWsAux [] rest
    else splitWsAux (c :: cur) rest

def splitWs (t : List Char) : List (List Char) := splitWsAux [] t

/-! ### `SECDocumentProcessor.clean_text`

The five `re.sub` passes, in source order, then `strip()`. -/

/-- Pass 1, `re.sub(r'\s+', ' ', text)`: collapse each whitespace run to a
single space.  `prevWs` records whether the previous character was part of
a run already emitted. -/
def collapseWsAux (prevWs : Bool) : List Char → List Char
  | [] => []
  | c :: rest =>
    if isPySpace c then
      if prevWs then collapseWsAux true rest
      else ' ' :: collapseWsAux true rest
    else c :: collapseWsAux false rest

def collapseWs (t : List Char) : List Char := collapseWsAux false t

/-- Match the regex `Page \d+ of \d+` at the front of `t`, returning the
remainder after the match.  Both `\d+` are maximal runs (the literal
continuations cannot be digits, so greedy matching never backtracks). -/
def litDrop : List Char → List Char → Option (List Char)
  | [], t => some t
  | _ :: _, [] => none
  | a :: as, b :: bs => if a == b then litDrop as bs else none

def digitsDrop1 : List Char → Option (List Char)
  | [] => none
  | c :: rest => if isDigitCh c then some (rest.dropWhile fun d => isDigitCh d) else none

def matchPage (t : List Char) : Option (List Char) :=
  match litDrop ("Page ".toList) t with
  | none => none
  | some t1 =>
    match digitsDrop1 t1 with
    | none => none
    | some t2 =>
      match litDrop (" of ".toList) t2 with
      | none => none
      | some t3 => digitsDrop1 t3

/-- Pass 2, `re.sub(r'Page \d+ of \d+', '', text)`: left-to-right scan,
deleting each match and resuming after it. -/
def pageSubAux : Nat → List Char → List Char
  | 0, t => t
  | _ + 1, [] => []
  | fuel + 1, c :: rest =>
    match matchPage (c :: rest) with
    | some rem => pageSubAux fuel rem
    | none => c :: pageSubAux fuel rest

def pageSub (t : List Char) : List Char := pageSubAux (t.length + 1) t

/-- Pass 3, `re.sub(r'\n{3,}', '\n\n', text)`: a maximal newline run of
length at least 3 becomes exactly two newlines. -/
def nlSubAux : Nat → List Char → List Char
  | 0, t => t
  | _ + 1, [] => []
  | fuel + 1, c :: rest =>
    if c == '\n' then
      let run := 1 + ((rest.takeWhile fun d => d == '\n').length)
      let after := rest.dropWhile fun d => d == '\n'
      if 3 ≤ run then '\n' :: '\n' :: nlSubAux fuel after
      else c :: (rest.takeWhile fun d => d == '\n') ++ nlSubAux fuel after
    else c :: nlSubAux fuel rest

def nlSub (t : List Char) : List Char := nlSubAux (t.length + 1) t

/-- Pass 4, `re.sub(r'&[a-zA-Z]+;', ' ', text)`: an ampersand followed by
one or more ASCII letters and a semicolon becomes one space. -/
def entitySubAux : Nat → List Char → List Char
  | 0, t => t
  | _ + 1, [] => []
  | fuel + 1, c :: rest =>
    if c == '&' then
      let letters := rest.takeWhile fun d => isAsciiLetter d
      let after := rest.dropWhile fun d => isAsciiLetter d
      match after with
      | ';' :: tail =>
        if letters.isEmpty then c :: entitySubAux fuel rest
        else ' ' :: entitySubAux fuel tail
      | _ => c :: entitySubAux fuel rest
    else c :: entitySubAux fuel rest

def entitySub (t : List Char) : List Char := entitySubAux (t.length + 1) t

/-- Pass 5, `re.sub(r'(?<=[a-z])(?=[A-Z])', ' ', text)`: insert a space at
each boundary between an ASCII lowercase and an ASCII uppercase letter. -/
def camelSub : List Char → List Char
  | [] => []
  | [c] => [c]
  | a :: b :: rest =>
    if isLowerAZ a && isUpperAZ b then a :: ' ' :: camelSub (b :: rest)
    else a :: camelSub (b :: rest)

/-- `SECDocumentProcessor.clean_text`. -/
def clean_text (t : List Char) : List Char :=
  stripL (camelSub (entitySub (nlSub (pageSub (collapseWs t)))))

/-! ### `SECDocumentProcessor.identify_sections`

The source builds the pattern `(?:^|\n)\s*(` + '|'.join(SEC_SECTIONS) + `)[\s:\.\n]`
and runs `re.finditer` with `IGNORECASE | MULTILINE`.  The matcher below
reproduces the backtracking order of the Python engine: at a scan position
the zero-width `^` alternative is tried before consuming a literal `\n`;
for a fixed anchor the greedy `\s*` is tried from its maximal run
downwards; for a fixed `\s*` consumption the section-name alternatives are
tried in list order, each requiring one trailing character of the class
`[\s:.\n]`. -/

def SEC_SECTIONS : List (List Char) :=
  [ "BUSINESS".toList,
    "RISK FACTORS".toList,
    "MANAGEMENT'S DISCUSSION AND ANALYSIS".toList,
    "FINANCIAL STATEMENTS".toList,
    "CLINICAL TRIALS".toList,
    "PRODUCT PIPELINE".toList,
    "INTELLECTUAL PROPERTY".toList,
    "COMPETITION".toList,
    "REGULATORY".toList,
    "ITEM 1A".toList,
    "ITEM 7".toList,
    "PART I".toList,
    "PART II".toList ]

/-- The trailing character class `[\s:\.\n]` (`\n` is already in `\s`). -/
def sectionClassChar (c : Char) : Bool := isPySpace c || c == ':' || c == '.'

/-- Character of `t` at position `p`, if any. -/
def getCh (t : List Char) (p : Nat) : Option Char := (t.drop p).head?

/-- Length of the maximal whitespace run of `t` starting at `p`. -/
def wsRunLen (t : List Char) (p : Nat) : Nat :=
  ((t.drop p).takeWhile fun c => isPySpace c).length

/-- Try the name alternatives in order at position `r`; a success returns
`(r, e)` where `e` is the overall match end (one class character past the
name). -/
def tryNamesAux (t : List Char) (r : Nat) : List (List Char) → Option (Nat × Nat)
  | [] => none
  | nm :: rest =>
    if ciStarts nm (t.drop r) then
      match getCh t (r + nm.length) with
      | some c =>
        if sectionClassChar c then some (r, r + nm.length + 1)
        else tryNamesAux t r rest
      | none => tryNamesAux t r rest
    else tryNamesAux t r rest

def tryNames (t : List Char) (r : Nat) : Option (Nat × Nat) :=
  tryNamesAux t r SEC_SECTIONS

/-- Backtrack the greedy `\s*` from consuming `n` whitespace characters
(starting at `q`) down to zero. -/
def tryWsDown (t : List Char) (q : Nat) : Nat → Option (Nat × Nat)
  | 0 => tryNames t q
  | n + 1 =>
    match tryNames t (q + (n + 1)) with
    | some res => some res
    | none => tryWsDown t q n

/-- Try the whole pattern at scan position `p`; returns the name span start
and the match end.  The overall match start is `p` itself. -/
def matchAtPos (t : List Char) (p : Nat) : Option (Nat × Nat) :=
  let pathA :=
    if p == 0 || getCh t (p - 1) == some '\n' then tryWsDown t p (wsRunLen t p)
    else none
  match pathA with
  | some res => some res
  | none =>
    if getCh t p == some '\n' then tryWsDown t (p + 1) (wsRunLen t (p + 1))
    else none

/-- `re.finditer` scan: leftmost matches, resuming after each match end.
Every match consumes at least one character, so fuel `t.length + 1`
suffices. -/
def finditerSecAux (t : List Char) : Nat → Nat → List (Nat × Nat × Nat)
  | 0, _ => []
  | fuel + 1, p =>
    if t.length ≤ p then []
    else
      match matchAtPos t p with
      | some (r, e) => (p, r, e) :: finditerSecAux t fuel e
      | none => finditerSecAux t fuel (p + 1)

/-- The `(match.group(1).strip(), match.start())` pairs of the scan. -/
def secMatches (t : List Char) : List (String × Nat) :=
  (finditerSecAux t (t.length + 1) 0).map fun m =>
    (String.mk (stripL (sliceN t m.2.1 (m.2.2 - 1))), m.1)

/-- Each section ends where the next match starts; the last ends at
`len(text)`. -/
def sectionsOfMatches (n : Nat) : List (String × Nat) → List (String × Nat × Nat)
  | [] => []
  | (nm, st) :: rest =>
    let e := match rest with | [] => n | (_, st2) :: _ => st2
    (nm, st, e) :: sectionsOfMatches n rest

/-- `SECDocumentProcessor.identify_sections`. -/
def identify_sections (t : List Char) : List (String × Nat × Nat) :=
  let ms := secMatches t
  if ms.isEmpty then [("FULL_DOCUMENT", 0, t.length)]
  else sectionsOfMatches t.length ms

/-! ### `SECDocumentProcessor.chunk_text` -/

/-- The processor's configuration (`chunk_size`/`chunk_overlap` in tokens,
char sizes = tokens * 4, defaults 512/50). -/
structure SECDocumentProcessor where
  chunk_size : Nat
  chunk_overlap : Nat

def SECDocumentProcessor.chunk_char_size (P : SECDocumentProcessor) : Nat :=
  P.chunk_size * 4

def SECDocumentProcessor.overlap_char_size (P : SECDocumentProcessor) : Nat :=
  P.chunk_overlap * 4

def defaultProcessor : SECDocumentProcessor := ⟨512, 50⟩

/-- A chunk dictionary.  `chunk_text` fills `text`, `chunk_id`,
`section_name` (dict key `'section'`), `char_start`, `char_end`; the
caller-supplied metadata dict contributes the remaining fields (in the
indexing path its keys are disjoint from the computed ones, so the
`**metadata` merge is a disjoint union).  Absent dict keys are `none`;
filing dates are abstracted to an ordered integer timestamp (the code only
parses and compares them). -/
structure Chunk where
  text : List Char := []
  chunk_id : Nat := 0
  section_name : Option String := none
  char_start : Option Int := none
  char_end : Option Int := none
  file_path : Option String := none
  filing_id : Option Int := none
  company_id : Option Int := none
  filing_type : Option String := none
  filing_date : Option Int := none
deriving DecidableEq

/-- `str.rfind(sub, a, b)`: highest `i` with `a ≤ i`, `i + len(sub) ≤ b`
and `sub` at `i`; `-1` when none (indices clamped Python-style). -/
def rfindAux (t sub : List Char) (lo : Nat) : Nat → Option Nat
  | 0 => none
  | k + 1 =>
    let i := lo + k
    if litStarts sub (t.drop i) then some i else rfindAux t sub lo k

def pyRfind (t sub : List Char) (a b : Int) : Int :=
  let lo := pyIdxClamp t.length a
  let hi := pyIdxClamp t.length b
  let cand : Int := (hi : Int) + 1 - sub.length - lo
  if cand ≤ 0 then -1
  else
    match rfindAux t sub lo cand.toNat with
    | some i => (i : Int)
    | none => -1

/-- The sentence-end markers tried in source order. -/
def sentence_ends : List (List Char) :=
  [ ['.', ' '], ['.', '\n'], ['?', ' '], ['?', '\n'], ['!', ' '], ['!', '\n'] ]

/-- The `for marker in sentence_ends` loop: first marker whose `rfind`
succeeds wins, yielding `last_marker + len(marker)`. -/
def fseAux (st : List Char) (a b : Int) : List (List Char) → Option Int
  | [] => none
  | m :: rest =>
    let r := pyRfind st m a b
    if r == -1 then fseAux st a b rest else some (r + m.length)

def findSentenceEnd (st : List Char) (a b : Int) : Option Int :=
  fseAux st a b sentence_ends

/-- The inner `while pos < len(section_text)` loop of `chunk_text`,
threading the running chunk counter.  The fuel bounds the iteration count;
with the default sizes the cursor advances by at least
`chunk_char_size/2 + 2 - overlap_char_size > 0` per iteration, so fuel
`len(section_text) + 1` is never exhausted. -/
def chunkSectionLoop (P : SECDocumentProcessor) (base : Chunk) (sname : String)
    (section_start : Nat) (st : List Char) :
    Nat → Int → Nat → (List Chunk × Nat)
  | 0, _, cid => ([], cid)
  | fuel + 1, pos, cid =>
    if pos < (st.length : Int) then
      let hard_end : Int := min (pos + (P.chunk_char_size : Int)) (st.length : Int)
      let chunk_end : Int :=
        if hard_end < (st.length : Int) then
          match findSentenceEnd st (pos + ((P.chunk_char_size / 2 : Nat) : Int)) hard_end with
          | some e => e
          | none => hard_end
        else hard_end
      let ctext := stripL (pySlice st pos chunk_end)
      let produced : List Chunk × Nat :=
        if ctext.isEmpty then ([], cid)
        else
          ([{ base with
                text := ctext,
                chunk_id := cid,
                section_name := some sname,
                char_start := some ((section_start : Int) + pos),
                char_end := some ((section_start : Int) + chunk_end) }], cid + 1)
      let pos1 := chunk_end - (P.overlap_char_size : Int)
      if (st.length : Int) - (P.overlap_char_size : Int) ≤ pos1 then produced
      else
        let rest := chunkSectionLoop P base sname section_start st fuel pos1 produced.2
        (produced.1 ++ rest.1, rest.2)
    else ([], cid)

/-- `SECDocumentProcessor.chunk_text`: clean, identify sections, then chunk
each section that is at least 100 stripped characters long. -/
def chunk_text (P : SECDocumentProcessor) (text : List Char) (base : Chunk) :
    List Chunk :=
  let cleaned := clean_text text
  let sections := identify_sections cleaned
  (sections.foldl
    (fun (acc : List Chunk × Nat) sec =>
      let st := sliceN cleaned sec.2.1 sec.2.2
      if (stripL st).length < 100 then acc
      else
        let r := chunkSectionLoop P base sec.1 sec.2.1 st (st.length + 1) 0 acc.2
        (acc.1 ++ r.1, r.2))
    ([], 0)).1

/-! ### `FAISSIndex` state

The FAISS ANN structure itself is abstracted to its two observable fields,
`ntotal` and `is_trained` (both IVF index flavours created by
`_create_index` have an `is_trained` attribute, so the
`hasattr(self.index, 'is_trained')` guards are always true).  `train_calls`
is a ghost event trace recording the argument of each `self.index.train`
invocation; the real object has no such field.  The post-training
`_pending_embeddings = None` and the initial missing attribute behave
identically to an empty list at every use site, so both are modelled as
`[]`. -/

/-- An embedding vector (one row of the numpy array). -/
abbrev Vec := List ℚ

/-- The value stored in `self.metadata[chunk_id]` (without the wall-clock
`indexed_at` field; `section_label` is the dict key `'section'`). -/
structure StoredMeta where
  idx : Nat
  file_path : Option String
  section_label : String
  filing_id : Option Int
  company_id : Option Int
  filing_type : Option String
  filing_date : Option Int
  char_start : Option Int
  char_end : Option Int
deriving DecidableEq

/-- `self.metadata[chunk_id] = {...}` body of both commit loops. -/
def storedMetaOf (ch : Chunk) (idx : Nat) : StoredMeta :=
  { idx := idx,
    file_path := ch.file_path,
    section_label := (ch.section_name).getD "UNKNOWN",
    filing_id := ch.filing_id,
    company_id := ch.company_id,
    filing_type := ch.filing_type,
    filing_date := ch.filing_date,
    char_start := ch.char_start,
    char_end := ch.char_end }

structure FAISSIndex where
  embedding_dim : Nat
  use_pq : Bool
  pq_bits : Nat
  is_trained : Bool
  ntotal : Nat
  metadata : List (Nat × StoredMeta)
  id_to_idx : List (Nat × Nat)
  next_id : Nat
  pending_embeddings : List (List Vec)
  pending_chunks : List Chunk
  train_calls : List (List Vec)
deriving DecidableEq

/-- `_create_index` starting state (no persisted files): a freshly built
IVF/IVFPQ structure is empty and untrained. -/
def initIndex (embedding_dim : Nat) (use_pq : Bool) (pq_bits : Nat) : FAISSIndex :=
  { embedding_dim := embedding_dim,
    use_pq := use_pq,
    pq_bits := pq_bits,
    is_trained := false,
    ntotal := 0,
    metadata := [],
    id_to_idx := [],
    next_id := 0,
    pending_embeddings := [],
    pending_chunks := [],
    train_calls := [] }

/-- Python dict assignment `d[k] = v` on an insertion-ordered map:
overwrite in place if the key exists, else append. -/
def dictInsert {α : Type} (m : List (Nat × α)) (k : Nat) (v : α) : List (Nat × α) :=
  if m.any (fun p => p.1 == k) then
    m.map (fun p => if p.1 == k then (k, v) else p)
  else m ++ [(k, v)]

/-- The commit loop shared by the two branches of `add_embeddings`: walk
the chunks, assign `self.next_id` ids and consecutive positions starting at
`cidx`, store metadata and the id→position entry, collect the ids.
Returns (metadata, id_to_idx, next_id, chunk_ids). -/
def commitLoop (meta : List (Nat × StoredMeta)) (iti : List (Nat × Nat))
    (nid cidx : Nat) :
    List Chunk → List (Nat × StoredMeta) × List (Nat × Nat) × Nat × List Nat
  | [] => (meta, iti, nid, [])
  | ch :: rest =>
    let meta1 := dictInsert meta nid (storedMetaOf ch cidx)
    let iti1 := dictInsert iti nid cidx
    let r := commitLoop meta1 iti1 (nid + 1) (cidx + 1) rest
    (r.1, r.2.1, r.2.2.1, nid :: r.2.2.2)

/-- The minimum-training-points computation inlined in `add_embeddings`
(`40 * nlist` with `nlist = 1000`, or `256 * m` for PQ). -/
def min_train_points (use_pq : Bool) (embedding_dim : Nat) : Nat :=
  if use_pq then
    max (40 * 1000) (256 * (if embedding_dim == 384 then 48 else 96))
  else 40 * 1000

/-- `FAISSIndex.add_embeddings`.  Returns the state paired with the normal
result or the raised error; the `ValueError` is raised before any state
mutation, so the paired state is the original one in that case. -/
def FAISSIndex.add_embeddings (s : FAISSIndex) (embeddings : List Vec)
    (chunks : List Chunk) : FAISSIndex × Except String (List Nat) :=
  if embeddings.length ≠ chunks.length then
    (s, .error "Number of embeddings must match number of chunks")
  else if s.is_trained = false then
    let pe := s.pending_embeddings ++ [embeddings]
    let pc := s.pending_chunks ++ chunks
    let total_pending := (pe.map List.length).sum
    if total_pending < min_train_points s.use_pq s.embedding_dim then
      ({ s with pending_embeddings := pe, pending_chunks := pc }, .ok [])
    else
      let all_embeddings := pe.flatten
      let all_chunks := pc
      let s1 := { s with
        is_trained := true,
        train_calls := s.train_calls ++ [all_embeddings],
        pending_embeddings := [],
        pending_chunks := [] }
      let r := commitLoop s1.metadata s1.id_to_idx s1.next_id 0 all_chunks
      ({ s1 with
          metadata := r.1,
          id_to_idx := r.2.1,
          next_id := r.2.2.1,
          ntotal := s1.ntotal + all_embeddings.length },
       .ok r.2.2.2)
  else
    let r := commitLoop s.metadata s.id_to_idx s.next_id s.ntotal chunks
    ({ s with
        metadata := r.1,
        id_to_idx := r.2.1,
        next_id := r.2.2.1,
        ntotal := s.ntotal + embeddings.length },
     .ok r.2.2.2)

/-! ### `FAISSIndex.search`

`self.index.search(query, search_k)` is abstracted to an oracle
`ann : Nat → List (ℚ × Int)` supplying the zipped
`(distances[0], indices[0])` rows for a requested candidate count; the
query embedding lives inside the oracle.  All theorems about filtering
quantify over every oracle, hence over every possible ANN answer. -/

/-- One element of the result list built by `search`. -/
structure SearchHit where
  chunk_id : Nat
  score : ℚ
  file_path : Option String
  char_start : Option Int
  char_end : Option Int
  section_label : String
  filing_id : Option Int
  company_id : Option Int
  filing_type : Option String
  filing_date : Option Int
deriving DecidableEq

/-- The result dict appended for a surviving candidate. -/
def mkHit (cid : Nat) (dist : ℚ) (m : StoredMeta) : SearchHit :=
  { chunk_id := cid,
    score := dist,
    file_path := m.file_path,
    char_start := m.char_start,
    char_end := m.char_end,
    section_label := m.section_label,
    filing_id := m.filing_id,
    company_id := m.company_id,
    filing_type := m.filing_type,
    filing_date := m.filing_date }

/-- The linear scan `for cid, cidx in self.id_to_idx.items(): if cidx == idx`. -/
def findChunkId (iti : List (Nat × Nat)) (idx : Int) : Option Nat :=
  (iti.find? fun p => ((p.2 : Int) == idx)).map fun p => p.1

/-- `self.metadata.get(chunk_id)`. -/
def lookupMeta (meta : List (Nat × StoredMeta)) (cid : Nat) : Option StoredMeta :=
  (meta.find? fun p => p.1 == cid).map fun p => p.2

/-- `if filter_company_id and metadata.get('company_id') != filter_company_id`:
Python truthiness makes the filter inert for `None` and for `0`. -/
def companySkip (fc : Option Int) (m : StoredMeta) : Bool :=
  match fc with
  | none => false
  | some x => !(x == 0) && !(m.company_id == some x)

/-- `if filter_filing_type and ... != filter_filing_type`: inert for `None`
and for the empty string. -/
def typeSkip (ft : Option String) (m : StoredMeta) : Bool :=
  match ft with
  | none => false
  | some ty => !(ty == "") && !(m.filing_type == some ty)

/-- `if filter_date_after:` (a datetime is always truthy) then skip when a
stored, truthy filing date parses to something earlier; `none` stands for
a missing or empty stored date string. -/
def dateSkip (fd : Option Int) (m : StoredMeta) : Bool :=
  match fd with
  | none => false
  | some d =>
    match m.filing_date with
    | none => false
    | some fdm => decide (fdm < d)

/-- The result-collection loop of `search`, with the `break` at `k`
results. -/
def searchLoop (s : FAISSIndex) (k : Nat) (fc : Option Int) (ft : Option String)
    (fd : Option Int) : List (ℚ × Int) → List SearchHit → List SearchHit
  | [], acc => acc
  | (dist, idx) :: rest, acc =>
    if idx == -1 then searchLoop s k fc ft fd rest acc
    else
      match findChunkId s.id_to_idx idx with
      | none => searchLoop s k fc ft fd rest acc
      | some cid =>
        match lookupMeta s.metadata cid with
        | none => searchLoop s k fc ft fd rest acc
        | some m =>
          if companySkip fc m then searchLoop s k fc ft fd rest acc
          else if typeSkip ft m then searchLoop s k fc ft fd rest acc
          else if dateSkip fd m then searchLoop s k fc ft fd rest acc
          else
            let acc2 := acc ++ [mkHit cid dist m]
            if k ≤ acc2.length then acc2
            else searchLoop s k fc ft fd rest acc2

/-- `FAISSIndex.search`. -/
def FAISSIndex.search (s : FAISSIndex) (ann : Nat → List (ℚ × Int)) (k : Nat)
    (fc : Option Int) (ft : Option String) (fd : Option Int) : List SearchHit :=
  if s.ntotal = 0 then []
  else
    let search_k := min (k * 10) s.ntotal
    searchLoop s k fc ft fd (ann search_k) []

/-! ### `FAISSIndex.save_index` and the on-disk artifacts -/

/-- The three artifact files of the persistence layout; the serialized ANN
structure is abstracted to its observable fields. -/
structure Disk where
  index_file : Option (Nat × Bool)
  metadata_file : Option (List (Nat × StoredMeta))
  id_map_file : Option (List (Nat × Nat) × Nat)
deriving DecidableEq

def emptyDisk : Disk := ⟨none, none, none⟩

/-- `FAISSIndex.save_index`: a truthy pending buffer or an untrained
structure returns after a warning, touching nothing; otherwise all three
artifacts are written. -/
def FAISSIndex.save_index (s : FAISSIndex) (d : Disk) : Disk :=
  if !s.pending_embeddings.isEmpty then d
  else if s.is_trained = false then d
  else
    { index_file := some (s.ntotal, s.is_trained),
      metadata_file := some s.metadata,
      id_map_file := some (s.id_to_idx, s.next_id) }

/-! ### `FAISSIndex.remove_company_filings` -/

/-- `del m[k]`: remove the (unique) entry, or `none` for a `KeyError`. -/
def delKey {α : Type} (m : List (Nat × α)) (k : Nat) : Option (List (Nat × α)) :=
  if m.any (fun p => p.1 == k) then some (m.eraseP fun p => p.1 == k) else none

/-- The deletion loop (`for chunk_id in chunks_to_remove`): the two `del`
statements run in sequence and a `KeyError` aborts the loop with the
mutations already made kept. -/
def removeLoop (s : FAISSIndex) : List Nat → FAISSIndex × Except String Unit
  | [] => (s, .ok ())
  | cid :: rest =>
    match delKey s.metadata cid with
    | none => (s, .error "KeyError")
    | some meta1 =>
      match delKey s.id_to_idx cid with
      | none => ({ s with metadata := meta1 }, .error "KeyError")
      | some iti1 =>
        removeLoop { s with metadata := meta1, id_to_idx := iti1 } rest

/-- `FAISSIndex.remove_company_filings`. -/
def FAISSIndex.remove_company_filings (s : FAISSIndex) (company_id : Int) :
    FAISSIndex × Except String Unit :=
  let chunks_to_remove :=
    (s.metadata.filter fun p => p.2.company_id == some company_id).map fun p => p.1
  removeLoop s chunks_to_remove

/-! ### `RAGSearchEngine.load_chunk_text`

`SECDocumentProcessor.load_filing` decompresses and reads a file; the file
system is an association list from path to the decompressed text, and a
missing path raises `FileNotFoundError(f"Filing not found: {path}")`, which
`load_chunk_text` catches into its error sentinel.  A present
`char_start`/`char_end` of `None` would raise a `TypeError` during slicing,
likewise caught; that sentinel's embedded message is abbreviated to the
exception type name. -/

abbrev FileSys := List (String × List Char)

def fsLookup (fs : FileSys) (p : String) : Option (List Char) :=
  (fs.find? fun e => e.1 == p).map fun e => e.2

/-- `RAGSearchEngine.load_chunk_text` applied to a search hit. -/
def load_chunk_text (fs : FileSys) (hit : SearchHit) : List Char :=
  match hit.file_path with
  | none => "[Text not available - missing file path]".toList
  | some p =>
    if p == "" then "[Text not available - missing file path]".toList
    else
      match fsLookup fs p with
      | none => ("[Error loading text: Filing not found: " ++ p ++ "]").toList
      | some full_text =>
        match hit.char_start with
        | none => "[Error loading text: TypeError]".toList
        | some cs =>
          let sliced :=
            match hit.char_end with
            | none => pySlice full_text cs (cs + 2000)
            | some ce =>
              if ce == 0 then pySlice full_text cs (cs + 2000)
              else pySlice full_text cs ce
          stripL (clean_text sliced)

/-! ### `RAGSearchEngine._rerank_results` and the tail of `search`

Python float weights `0.5 / 0.3 / 0.2` and the int-division word fraction
are modelled exactly in ℚ.  `results.sort(key=..., reverse=True)` is a
stable descending sort; any stable sort with the same key produces the same
list, so it is modelled by a stable insertion sort. -/

/-- A search result dict after the text-enrichment loop of `search`:
the FAISS hit plus the on-demand loaded text.  `rerank_score` is absent
(`none`) until `_rerank_results` adds it. -/
structure EnhancedResult where
  hit : SearchHit
  text : List Char
  rerank_score : Option ℚ := none
deriving DecidableEq

/-- `set(query.lower().split())` as a duplicate-free list. -/
def queryWordSet (query : List Char) : List (List Char) :=
  (splitWs (toLowerL query)).dedup

/-- `sum(1 for word in query_words if word in text_lower)`. -/
def wordScore (qws : List (List Char)) (textLower : List Char) : Nat :=
  (qws.filter fun w => substrIn w textLower).length

/-- The per-result score computation of `_rerank_results`. -/
def scoreWith (query : List Char) (r : EnhancedResult) : EnhancedResult :=
  let qws := queryWordSet query
  let tl := toLowerL r.text
  let word_score : Nat := wordScore qws tl
  let phrase_score : ℚ := if substrIn (toLowerL query) tl then 10 else 0
  let similarity_score : ℚ := 1 / (1 + r.hit.score)
  let blended : ℚ :=
    similarity_score * (5 / 10)
      + ((word_score : ℚ) / (qws.length : ℚ)) * (3 / 10)
      + phrase_score * (2 / 10)
  { r with rerank_score := some blended }

/-- Stable insertion into a descending-by-key list: an element moves past
exactly the strictly greater keys, so ties keep input order (the behaviour
of `list.sort(key=..., reverse=True)`). -/
def insertDesc {α : Type} (key : α → ℚ) (x : α) : List α → List α
  | [] => [x]
  | y :: ys => if key x < key y then y :: insertDesc key x ys else x :: y :: ys

def sortByDesc {α : Type} (key : α → ℚ) : List α → List α
  | [] => []
  | x :: rest => insertDesc key x (sortByDesc key rest)

/-- `RAGSearchEngine._rerank_results` (the returned list; `k` is unused by
the source body). -/
def rerank_results (query : List Char) (results : List EnhancedResult) :
    List EnhancedResult :=
  sortByDesc (fun r => r.rerank_score.getD 0) (results.map (scoreWith query))

/-- The tail of `RAGSearchEngine.search`: rerank only when requested and
strictly more than `k` enhanced results exist, then truncate to `k`. -/
def searchFinalize (query : List Char) (enhanced : List EnhancedResult)
    (k : Nat) (rerank : Bool) : List EnhancedResult :=
  (if rerank && decide (k < enhanced.length)
   then rerank_results query enhanced
   else enhanced).take k

/-! ### Operation sequences over one index lifetime -/

inductive Op where
  | add (embeddings : List Vec) (chunks : List Chunk)
  | remove (company_id : Int)

/-- Run a sequence of mutating calls, collecting the id list returned by
each successful `add_embeddings`; a raised exception ends the run. -/
def runOps (s : FAISSIndex) : List Op → FAISSIndex × List (List Nat)
  | [] => (s, [])
  | .add e c :: rest =>
    match s.add_embeddings e c with
    | (s1, .ok ids) =>
      let r := runOps s1 rest
      (r.1, ids :: r.2)
    | (s1, .error _) => (s1, [])
  | .remove cid :: rest =>
    match s.remove_company_filings cid with
    | (s1, .ok _) => runOps s1 rest
    | (s1, .error _) => (s1, [])

/-! ### Helper lemmas: the commit loop -/

/-- Statement-side description of the metadata entries appended by one
commit loop run. -/
def committedMeta (nid cidx : Nat) : List Chunk → List (Nat × StoredMeta)
  | [] => []
  | ch :: rest => (nid, storedMetaOf ch cidx) :: committedMeta (nid + 1) (cidx + 1) rest

/-- Statement-side description of the id→position entries appended by one
commit loop run. -/
def committedIdx (nid cidx : Nat) : List Chunk → List (Nat × Nat)
  | [] => []
  | _ :: rest => (nid, cidx) :: committedIdx (nid + 1) (cidx + 1) rest

theorem dictInsert_append {α : Type} (m : List (Nat × α)) (k : Nat) (v : α)
    (h : ∀ p ∈ m, p.1 ≠ k) : dictInsert m k v = m ++ [(k, v)] := by
  unfold dictInsert
  rw [if_neg]
  simp only [List.any_eq_true, beq_iff_eq, not_exists]
  exact fun p hpk => h p hpk.1 hpk.2

theorem commitLoop_ids (l : List Chunk) :
    ∀ meta iti nid cidx,
      (commitLoop meta iti nid cidx l).2.2.1 = nid + l.length ∧
      (commitLoop meta iti nid cidx l).2.2.2 = List.range' nid l.length := by
  induction l with
  | nil => intro meta iti nid cidx; simp [commitLoop]
  | cons ch rest ih =>
    intro meta iti nid cidx
    simp only [commitLoop, List.length_cons]
    constructor
    · rw [(ih _ _ (nid + 1) (cidx + 1)).1]; omega
    · rw [(ih _ _ (nid + 1) (cidx + 1)).2, List.range'_succ]

theorem commitLoop_eq (l : List Chunk) :
    ∀ meta iti nid cidx,
      (∀ p ∈ meta, p.1 < nid) → (∀ p ∈ iti, p.1 < nid) →
      commitLoop meta iti nid cidx l =
        (meta ++ committedMeta nid cidx l, iti ++ committedIdx nid cidx l,
         nid + l.length, List.range' nid l.length) := by
  induction l with
  | nil => intro meta iti nid cidx _ _; simp [commitLoop, committedMeta, committedIdx]
  | cons ch rest ih =>
    intro meta iti nid cidx hm hi
    have hm1 : dictInsert meta nid (storedMetaOf ch cidx) = meta ++ [(nid, storedMetaOf ch cidx)] :=
      dictInsert_append _ _ _ (fun p hp => Nat.ne_of_lt (hm p hp))
    have hi1 : dictInsert iti nid cidx = iti ++ [(nid, cidx)] :=
      dictInsert_append _ _ _ (fun p hp => Nat.ne_of_lt (hi p hp))
    have hm2 : ∀ p ∈ meta ++ [(nid, storedMetaOf ch cidx)], p.1 < nid + 1 := by
      intro p hp
      rcases List.mem_append.mp hp with h | h
      · exact Nat.lt_succ_of_lt (hm p h)
      · simp only [List.mem_singleton] at h; subst h; exact Nat.lt_succ_self _
    have hi2 : ∀ p ∈ iti ++ [(nid, cidx)], p.1 < nid + 1 := by
      intro p hp
      rcases List.mem_append.mp hp with h | h
      · exact Nat.lt_succ_of_lt (hi p h)
      · simp only [List.mem_singleton] at h; subst h; exact Nat.lt_succ_self _
    simp only [commitLoop, hm1, hi1, ih _ _ (nid + 1) (cidx + 1) hm2 hi2,
      committedMeta, committedIdx, List.length_cons, List.range'_succ,
      List.append_assoc, List.singleton_append]
    have hn : nid + 1 + rest.length = nid + (rest.length + 1) := by omega
    rw [hn]

/-- Every successful `add_embeddings` call returns the consecutive block of
ids starting at the incoming `next_id` and advances `next_id` by exactly
that many. -/
theorem add_embeddings_ok_ids (s : FAISSIndex) (e : List Vec) (c : List Chunk)
    (s' : FAISSIndex) (ids : List Nat)
    (h : s.add_embeddings e c = (s', .ok ids)) :
    ids = List.range' s.next_id ids.length ∧
    s'.next_id = s.next_id + ids.length := by
  unfold FAISSIndex.add_embeddings at h
  split at h
  · exact absurd (congrArg Prod.snd h) (by simp)
  · split at h
    · dsimp only at h
      split at h
      · rw [Prod.mk.injEq] at h
        obtain ⟨h1, h2⟩ := h
        rw [Except.ok.injEq] at h2
        subst h2
        subst h1
        exact ⟨rfl, rfl⟩
      · have hc := commitLoop_ids (s.pending_chunks ++ c) s.metadata s.id_to_idx s.next_id 0
        rw [Prod.mk.injEq] at h
        obtain ⟨h1, h2⟩ := h
        rw [Except.ok.injEq] at h2
        subst h2
        subst h1
        refine ⟨?_, ?_⟩
        · rw [hc.2, List.length_range']
        · dsimp only
          rw [hc.1, hc.2, List.length_range']
    · dsimp only at h
      have hc := commitLoop_ids c s.metadata s.id_to_idx s.next_id s.ntotal
      rw [Prod.mk.injEq] at h
      obtain ⟨h1, h2⟩ := h
      rw [Except.ok.injEq] at h2
      subst h2
      subst h1
      refine ⟨?_, ?_⟩
      · rw [hc.2, List.length_range']
      · dsimp only
        rw [hc.1, hc.2, List.length_range']

/-! ### Helper lemmas: removal -/

theorem eraseP_eq_filter_of_nodup_keys {α : Type} (k : Nat) :
    ∀ m : List (Nat × α), (m.map fun p => p.1).Nodup →
      m.eraseP (fun p => p.1 == k) = m.filter fun p => !(p.1 == k) := by
  intro m
  induction m with
  | nil => intro _; rfl
  | cons p m' ih =>
    intro hnd
    rw [List.map_cons, List.nodup_cons] at hnd
    by_cases hk : p.1 = k
    · rw [List.eraseP_cons_of_pos (by simp [hk]), List.filter_cons_of_neg (by simp [hk])]
      symm
      rw [List.filter_eq_self]
      intro q hq
      have : q.1 ≠ k := by
        intro hq1
        exact hnd.1 (by rw [hk, ← hq1]; exact List.mem_map_of_mem _ hq)
      simp [this]
    · rw [List.eraseP_cons_of_neg (by simp [hk]), List.filter_cons_of_pos (by simp [hk]),
        ih hnd.2]

theorem delKey_of_mem {α : Type} (m : List (Nat × α)) (k : Nat)
    (hmem : ∃ p ∈ m, p.1 = k) (hnd : (m.map fun p => p.1).Nodup) :
    delKey m k = some (m.filter fun p => !(p.1 == k)) := by
  unfold delKey
  rw [if_pos, eraseP_eq_filter_of_nodup_keys k m hnd]
  simp only [List.any_eq_true, beq_iff_eq]
  exact hmem

theorem nodup_keys_filter {α : Type} (m : List (Nat × α)) (q : Nat × α → Bool)
    (hnd : (m.map fun p => p.1).Nodup) :
    ((m.filter q).map fun p => p.1).Nodup :=
  hnd.sublist ((m.filter_sublist).map _)

/-- The deletion loop under the reachable-state invariants: it succeeds and
removes exactly the keys in `R` from both maps, touching nothing else. -/
theorem removeLoop_spec (R : List Nat) :
    ∀ s : FAISSIndex,
      (s.metadata.map fun p => p.1).Nodup →
      (s.id_to_idx.map fun p => p.1).Nodup →
      R.Nodup →
      (∀ id ∈ R, (∃ p ∈ s.metadata, p.1 = id) ∧ ∃ p ∈ s.id_to_idx, p.1 = id) →
      removeLoop s R =
        ({ s with
            metadata := s.metadata.filter fun p => decide (p.1 ∉ R),
            id_to_idx := s.id_to_idx.filter fun p => decide (p.1 ∉ R) }, .ok ()) := by
  induction R with
  | nil =>
    intro s _ _ _ _
    simp only [removeLoop]
    congr 1
    have hm : s.metadata.filter (fun p => decide (p.1 ∉ ([] : List Nat))) = s.metadata := by
      rw [List.filter_eq_self]; intro a _; simp
    have hi : s.id_to_idx.filter (fun p => decide (p.1 ∉ ([] : List Nat))) = s.id_to_idx := by
      rw [List.filter_eq_self]; intro a _; simp
    rw [hm, hi]
  | cons a R' ih =>
    intro s hndm hndi hndR hpres
    have hma : ∃ p ∈ s.metadata, p.1 = a := (hpres a (List.mem_cons_self a R')).1
    have hia : ∃ p ∈ s.id_to_idx, p.1 = a := (hpres a (List.mem_cons_self a R')).2
    rw [List.nodup_cons] at hndR
    simp only [removeLoop, delKey_of_mem s.metadata a hma hndm,
      delKey_of_mem s.id_to_idx a hia hndi]
    set s1 : FAISSIndex :=
      { s with
          metadata := s.metadata.filter fun p => !(p.1 == a),
          id_to_idx := s.id_to_idx.filter fun p => !(p.1 == a) } with hs1
    have hrec := ih s1 (nodup_keys_filter _ _ hndm) (nodup_keys_filter _ _ hndi) hndR.2 ?_
    · rw [hrec]
      have hmeq : s1.metadata.filter (fun p => decide (p.1 ∉ R')) =
          s.metadata.filter fun p => decide (p.1 ∉ a :: R') := by
        rw [hs1]
        dsimp only
        rw [List.filter_filter]
        apply List.filter_congr
        intro x _
        by_cases h1 : x.1 = a <;> by_cases h2 : x.1 ∈ R' <;> simp [h1, h2]
      have hieq : s1.id_to_idx.filter (fun p => decide (p.1 ∉ R')) =
          s.id_to_idx.filter fun p => decide (p.1 ∉ a :: R') := by
        rw [hs1]
        dsimp only
        rw [List.filter_filter]
        apply List.filter_congr
        intro x _
        by_cases h1 : x.1 = a <;> by_cases h2 : x.1 ∈ R' <;> simp [h1, h2]
      rw [hs1] at hmeq hieq ⊢
      dsimp only at hmeq hieq ⊢
      rw [hmeq, hieq]
    · intro id hid
      have hne : id ≠ a := fun hcon => hndR.1 (hcon ▸ hid)
      obtain ⟨⟨pm, hpm, hpm1⟩, ⟨pi, hpi, hpi1⟩⟩ := hpres id (List.mem_cons_of_mem a hid)
      constructor
      · exact ⟨pm, List.mem_filter.mpr ⟨hpm, by simp [hpm1, hne]⟩, hpm1⟩
      · exact ⟨pi, List.mem_filter.mpr ⟨hpi, by simp [hpi1, hne]⟩, hpi1⟩

/-- `removeLoop` never touches `next_id` (even on a `KeyError` path). -/
theorem removeLoop_next_id (R : List Nat) :
    ∀ s : FAISSIndex, ((removeLoop s R).1).next_id = s.next_id := by
  induction R with
  | nil => intro s; rfl
  | cons a R' ih =>
    intro s
    simp only [removeLoop]
    cases hd1 : delKey s.metadata a with
    | none => rfl
    | some meta1 =>
      cases hd2 : delKey s.id_to_idx a with
      | none => rfl
      | some iti1 => exact ih _

/-! ### Helper lemmas: the search loop -/

/-- Every hit produced by the search loop that is not already in the
accumulator comes from a metadata entry that survived all three filters,
with the hit fields copied from that entry. -/
theorem searchLoop_mem (s : FAISSIndex) (k : Nat) (fc : Option Int)
    (ft : Option String) (fd : Option Int) :
    ∀ (raw : List (ℚ × Int)) (acc : List SearchHit) (hit : SearchHit),
      hit ∈ searchLoop s k fc ft fd raw acc →
      hit ∈ acc ∨
        ∃ cid m dist, lookupMeta s.metadata cid = some m ∧
          companySkip fc m = false ∧ typeSkip ft m = false ∧
          dateSkip fd m = false ∧ hit = mkHit cid dist m := by
  intro raw
  induction raw with
  | nil => intro acc hit hmem; exact Or.inl hmem
  | cons di rest ih =>
    intro acc hit hmem
    obtain ⟨dist, idx⟩ := di
    simp only [searchLoop] at hmem
    split at hmem
    · exact ih acc hit hmem
    · split at hmem
      · exact ih acc hit hmem
      · rename_i cid hfind
        split at hmem
        · exact ih acc hit hmem
        · rename_i m hlook
          split at hmem
          · exact ih acc hit hmem
          · rename_i hcs
            split at hmem
            · exact ih acc hit hmem
            · rename_i hts
              split at hmem
              · exact ih acc hit hmem
              · rename_i hds
                have hcase : hit ∈ acc ++ [mkHit cid dist m] ∨
                    hit ∈ searchLoop s k fc ft fd rest (acc ++ [mkHit cid dist m]) := by
                  split at hmem
                  · exact Or.inl hmem
                  · exact Or.inr hmem
                have hstep : hit ∈ acc ++ [mkHit cid dist m] →
                    hit ∈ acc ∨
                      ∃ cid' m' dist', lookupMeta s.metadata cid' = some m' ∧
                        companySkip fc m' = false ∧ typeSkip ft m' = false ∧
                        dateSkip fd m' = false ∧ hit = mkHit cid' dist' m' := by
                  intro hin
                  rcases List.mem_append.mp hin with h | h
                  · exact Or.inl h
                  · refine Or.inr ⟨cid, m, dist, hlook, ?_, ?_, ?_, List.mem_singleton.mp h⟩
                    · exact Bool.not_eq_true _ ▸ (Bool.of_not_eq_true hcs)
                    · exact Bool.not_eq_true _ ▸ (Bool.of_not_eq_true hts)
                    · exact Bool.not_eq_true _ ▸ (Bool.of_not_eq_true hds)
                rcases hcase with h | h
                · exact hstep h
                · rcases ih _ hit h with h2 | h2
                  · exact hstep h2
                  · exact Or.inr h2

/-- A metadata lookup only ever returns an entry of the map. -/
theorem lookupMeta_mem (meta : List (Nat × StoredMeta)) (cid : Nat) (m : StoredMeta)
    (h : lookupMeta meta cid = some m) : (cid, m) ∈ meta := by
  unfold lookupMeta at h
  cases hf : meta.find? (fun p => p.1 == cid) with
  | none => rw [hf] at h; exact absurd h (by simp)
  | some p =>
    rw [hf] at h
    simp only [Option.map_some'] at h
    have hp := List.find?_some hf
    have hpm := List.mem_of_find?_eq_some hf
    rw [beq_iff_eq] at hp
    have : p = (cid, m) := by
      obtain ⟨p1, p2⟩ := p
      simp only at hp
      injection h with h2
      simp only at h2
      rw [hp, h2]
    rw [← this]
    exact hpm

/-! ### Helper lemmas: the stable descending sort -/

theorem insertDesc_perm {α : Type} (key : α → ℚ) (x : α) :
    ∀ l : List α, (insertDesc key x l).Perm (x :: l) := by
  intro l
  induction l with
  | nil => exact List.Perm.refl _
  | cons y ys ih =>
    simp only [insertDesc]
    split
    · exact ((ih.cons y).trans (List.Perm.swap x y ys))
    · exact List.Perm.refl _

theorem sortByDesc_perm {α : Type} (key : α → ℚ) :
    ∀ l : List α, (sortByDesc key l).Perm l := by
  intro l
  induction l with
  | nil => exact List.Perm.refl _
  | cons x rest ih =>
    exact (insertDesc_perm key x (sortByDesc key rest)).trans (ih.cons x)

theorem mem_insertDesc {α : Type} (key : α → ℚ) (x : α) (l : List α) (z : α)
    (h : z ∈ insertDesc key x l) : z = x ∨ z ∈ l :=
  List.mem_cons.mp ((insertDesc_perm key x l).mem_iff.mp h)

theorem insertDesc_pairwise {α : Type} (key : α → ℚ) (x : α) :
    ∀ l : List α, l.Pairwise (fun a b => key b ≤ key a) →
      (insertDesc key x l).Pairwise fun a b => key b ≤ key a := by
  intro l
  induction l with
  | nil => intro _; simp [insertDesc]
  | cons y ys ih =>
    intro hp
    rw [List.pairwise_cons] at hp
    simp only [insertDesc]
    split
    · rename_i hlt
      rw [List.pairwise_cons]
      constructor
      · intro z hz
        rcases mem_insertDesc key x ys z hz with h | h
        · rw [h]; exact le_of_lt hlt
        · exact hp.1 z h
      · exact ih hp.2
    · rename_i hge
      rw [List.pairwise_cons]
      constructor
      · intro z hz
        rcases List.mem_cons.mp hz with h | h
        · rw [h]; exact le_of_not_lt hge
        · exact le_trans (hp.1 z h) (le_of_not_lt hge)
      · exact List.Pairwise.cons hp.1 hp.2

theorem sortByDesc_pairwise {α : Type} (key : α → ℚ) :
    ∀ l : List α, (sortByDesc key l).Pairwise fun a b => key b ≤ key a := by
  intro l
  induction l with
  | nil => simp [sortByDesc]
  | cons x rest ih => exact insertDesc_pairwise key x _ ih

/-! ### Helper lemmas: the section scanner -/
theorem getCh_some_lt (t : List Char) (i : Nat) (c : Char)
    (h : getCh t i = some c) : i < t.length := by
  unfold getCh at h
  by_contra hge
  rw [List.drop_eq_nil_of_le (le_of_not_lt hge)] at h
  exact absurd h (by simp)

theorem tryNamesAux_spec (t : List Char) (r : Nat) :
    ∀ (names : List (List Char)) (r' e : Nat),
      tryNamesAux t r names = some (r', e) →
      r' = r ∧ r < e ∧ e ≤ t.length := by
  intro names
  induction names with
  | nil => intro r' e h; exact absurd h (by simp [tryNamesAux])
  | cons nm rest ih =>
    intro r' e h
    simp only [tryNamesAux] at h
    split at h
    · split at h
      · rename_i c hg
        split at h
        · have hlt := getCh_some_lt t (r + nm.length) c hg
          injection h with h2
          injection h2 with h3 h4
          subst h3; subst h4
          exact ⟨rfl, by omega, by omega⟩
        · exact ih r' e h
      · exact ih r' e h
    · exact ih r' e h

theorem tryWsDown_spec (t : List Char) (q : Nat) :
    ∀ (n r' e : Nat), tryWsDown t q n = some (r', e) →
      q ≤ r' ∧ r' < e ∧ e ≤ t.length := by
  intro n
  induction n with
  | zero =>
    intro r' e h
    obtain ⟨h1, h2, h3⟩ := tryNamesAux_spec t q _ r' e h
    subst h1
    exact ⟨le_refl _, h2, h3⟩
  | succ n ih =>
    intro r' e h
    simp only [tryWsDown] at h
    split at h
    · rename_i res hn
      injection h with h2
      subst h2
      obtain ⟨h1, h2, h3⟩ := tryNamesAux_spec t (q + (n + 1)) _ r' e hn
      subst h1
      exact ⟨by omega, h2, h3⟩
    · exact ih r' e h

theorem matchAtPos_spec (t : List Char) (p : Nat) (r e : Nat)
    (h : matchAtPos t p = some (r, e)) :
    p ≤ r ∧ r < e ∧ e ≤ t.length := by
  unfold matchAtPos at h
  dsimp only at h
  split at h
  · rename_i res hA
    split at hA
    · injection h with h2
      subst h2
      exact tryWsDown_spec t p _ r e hA
    · exact absurd hA (by simp)
  · rename_i hA
    split at h
    · have hs := tryWsDown_spec t (p + 1) _ r e h
      exact ⟨by omega, hs.2.1, hs.2.2⟩
    · exact absurd h (by simp)

theorem finditerSecAux_start_lb (t : List Char) :
    ∀ (fuel p : Nat) (m : Nat × Nat × Nat),
      m ∈ finditerSecAux t fuel p → p ≤ m.1 := by
  intro fuel
  induction fuel with
  | zero => intro p m h; exact absurd h (by simp [finditerSecAux])
  | succ fuel ih =>
    intro p m h
    simp only [finditerSecAux] at h
    split at h
    · exact absurd h (by simp)
    · split at h
      · rename_i r e hm
        rcases List.mem_cons.mp h with h1 | h1
        · rw [h1]
        · have hspec := matchAtPos_spec t p r e hm
          have := ih e m h1
          omega
      · have := ih (p + 1) m h
        omega

theorem finditerSecAux_bounds (t : List Char) :
    ∀ (fuel p : Nat) (m : Nat × Nat × Nat),
      m ∈ finditerSecAux t fuel p → m.1 < m.2.2 ∧ m.2.2 ≤ t.length := by
  intro fuel
  induction fuel with
  | zero => intro p m h; exact absurd h (by simp [finditerSecAux])
  | succ fuel ih =>
    intro p m h
    simp only [finditerSecAux] at h
    split at h
    · exact absurd h (by simp)
    · split at h
      · rename_i r e hm
        rcases List.mem_cons.mp h with h1 | h1
        · have hspec := matchAtPos_spec t p r e hm
          rw [h1]
          dsimp only
          exact ⟨by omega, hspec.2.2⟩
        · exact ih e m h1
      · exact ih (p + 1) m h

theorem finditerSecAux_chain (t : List Char) :
    ∀ (fuel p : Nat),
      List.Chain' (fun a b => a.2.2 ≤ b.1) (finditerSecAux t fuel p) := by
  intro fuel
  induction fuel with
  | zero => intro p; simp [finditerSecAux]
  | succ fuel ih =>
    intro p
    simp only [finditerSecAux]
    split
    · exact List.chain'_nil
    · split
      · rename_i r e hm
        rw [List.chain'_cons']
        constructor
        · intro y hy
          exact finditerSecAux_start_lb t fuel e y (List.mem_of_mem_head? hy)
        · exact ih e
      · exact ih (p + 1)

/-- Boolean tiling check: the spans walk from `cur` to `n`, each span
starting exactly where the previous ended and ending no earlier than it
starts; the last must end at `n`. -/
def tilesFrom : List (String × Nat × Nat) → Nat → Nat → Bool
  | [], cur, n => cur == n
  | (_, st, e) :: rest, cur, n => (st == cur) && decide (st ≤ e) && tilesFrom rest e n

/-- Start of the first returned span (0 for an empty list). -/
def headStart : List (String × Nat × Nat) → Nat
  | [] => 0
  | (_, st, _) :: _ => st

theorem tiles_sectionsOfMatches (n : Nat) (f : Nat × Nat × Nat → String) :
    ∀ (ms : List (Nat × Nat × Nat)) (st : Nat),
      (∀ m ∈ ms, m.1 < m.2.2 ∧ m.2.2 ≤ n) →
      List.Chain' (fun a b => a.2.2 ≤ b.1) ms →
      (match ms with | [] => st = n | m :: _ => st = m.1) →
      tilesFrom (sectionsOfMatches n (ms.map fun m => (f m, m.1))) st n = true := by
  intro ms
  induction ms with
  | nil =>
    intro st _ _ hst
    simp only at hst
    simp [sectionsOfMatches, tilesFrom, hst]
  | cons m rest ih =>
    intro st hb hch hst
    simp only at hst
    rw [List.map_cons]
    cases rest with
    | nil =>
      have hm := hb m (List.mem_cons_self _ _)
      simp only [List.map_nil, sectionsOfMatches, tilesFrom, hst]
      have h1 : m.1 ≤ n := by omega
      simp [h1]
    | cons m2 rest2 =>
      have hm := hb m (List.mem_cons_self _ _)
      have hch2 := List.chain'_cons.mp hch
      have h1 : m.1 ≤ m2.1 := by
        have := hch2.1
        omega
      have hrec := ih m2.1 (fun x hx => hb x (List.mem_cons_of_mem _ hx)) hch2.2 rfl
      simp only [List.map_cons, sectionsOfMatches, tilesFrom] at hrec ⊢
      simp only [Bool.and_eq_true, beq_iff_eq, decide_eq_true_eq] at hrec
      simp [hst, h1, hrec.1.2, hrec.2]

/-! ### Concrete example data -/

/-- A one-field chunk dict used by the scenario states. -/
def exChunk (cid : Int) : Chunk :=
  { company_id := some cid, file_path := some "data/filings/a.txt.gz",
    filing_id := some 1, filing_type := some "10-K" }

/-- Scenario A state: three one-chunk filings (companies 1, 2, 1) added to a
fresh index, all below the training minimum. -/
def scenario3 : FAISSIndex :=
  ((((initIndex 384 true 8).add_embeddings [[1]] [exChunk 1]).1.add_embeddings
      [[1]] [exChunk 2]).1.add_embeddings [[1]] [exChunk 1]).1

/-- A small trained corpus state: one committed chunk of company 5. -/
def trainedOne : FAISSIndex :=
  ({ initIndex 384 true 8 with is_trained := true }.add_embeddings
    [[1]] [exChunk 5]).1

/-- An oracle returning the single stored vector at distance 0. -/
def annOne : Nat → List (ℚ × Int) := fun _ => [(0, 0)]

/-! ### Claim theorems -/

/-- Claim C3 (amended): `identify_sections` always returns a non-empty
list of spans that tile contiguously from the first match start (not
necessarily 0) to `len(text)`, and returns exactly the sentinel
`FULL_DOCUMENT` span over the whole text when no header matches. -/
theorem identify_sections_tiling (t : List Char) :
    identify_sections t ≠ [] ∧
    tilesFrom (identify_sections t) (headStart (identify_sections t)) t.length = true ∧
    (secMatches t = [] → identify_sections t = [("FULL_DOCUMENT", 0, t.length)]) := by
  unfold identify_sections
  cases hL : finditerSecAux t (t.length + 1) 0 with
  | nil =>
    have hms : secMatches t = [] := by unfold secMatches; rw [hL]; rfl
    rw [hms]
    refine ⟨by simp, ?_, fun _ => by simp⟩
    simp [tilesFrom, headStart]
  | cons m0 Lrest =>
    have hms : secMatches t =
        ((m0 :: Lrest).map fun m => (String.mk (stripL (sliceN t m.2.1 (m.2.2 - 1))), m.1)) := by
      unfold secMatches; rw [hL]
    rw [hms]
    have hne : ¬ (((m0 :: Lrest).map fun m =>
        (String.mk (stripL (sliceN t m.2.1 (m.2.2 - 1))), m.1)).isEmpty = true) := by
      simp
    rw [if_neg hne]
    refine ⟨?_, ?_, ?_⟩
    · simp [sectionsOfMatches]
    · have hbounds : ∀ x ∈ m0 :: Lrest, x.1 < x.2.2 ∧ x.2.2 ≤ t.length := by
        intro x hx
        exact finditerSecAux_bounds t (t.length + 1) 0 x (hL ▸ hx)
      have hchain : List.Chain' (fun a b => a.2.2 ≤ b.1) (m0 :: Lrest) := by
        rw [← hL]; exact finditerSecAux_chain t (t.length + 1) 0
      have htiles := tiles_sectionsOfMatches t.length
        (fun m => String.mk (stripL (sliceN t m.2.1 (m.2.2 - 1))))
        (m0 :: Lrest) m0.1 hbounds hchain rfl
      have hhead : headStart (sectionsOfMatches t.length
          ((m0 :: Lrest).map fun m =>
            (String.mk (stripL (sliceN t m.2.1 (m.2.2 - 1))), m.1))) = m0.1 := by
        cases Lrest <;> rfl
      rw [hhead]
      exact htiles
    · intro hcon
      exact absurd hcon (by simp)

/-- Claim C3 (counterexample): on `"ab\nRISK FACTORS x"` the single
returned span starts at 2, so the spans do not cover the range from 0 and
the claimed full coverage is false. -/
theorem identify_sections_gap_cex :
    identify_sections ("ab\nRISK FACTORS x".toList) = [("RISK FACTORS", 2, 17)] ∧
    tilesFrom (identify_sections ("ab\nRISK FACTORS x".toList)) 0
      ("ab\nRISK FACTORS x".toList).length = false := by
  constructor
  · rfl
  · rfl

/-- Claim C4 (amended): for every nonzero (truthy) company filter value
`x`, every oracle answer, every `k` and every corpus state, each returned
hit carries stored metadata whose company id equals `x`. -/
theorem search_company_filter (s : FAISSIndex) (ann : Nat → List (ℚ × Int))
    (k : Nat) (x : Int) (ft : Option String) (fd : Option Int) (hx : x ≠ 0) :
    ∀ hit ∈ s.search ann k (some x) ft fd, hit.company_id = some x := by
  intro hit hmem
  unfold FAISSIndex.search at hmem
  split at hmem
  · exact absurd hmem (by simp)
  · rcases searchLoop_mem s k (some x) ft fd _ [] hit hmem with h | h
    · exact absurd h (by simp)
    · obtain ⟨cid, m, dist, _, hcs, _, _, hhit⟩ := h
      simp only [companySkip, Bool.and_eq_false_iff, Bool.not_eq_false',
        beq_iff_eq] at hcs
      rcases hcs with h1 | h1
      · exact absurd h1 hx
      · rw [hhit]
        show m.company_id = some x
        exact h1

/-- Claim C4 (witness for the amended theorem): the filter value 1 is
truthy and the one stored hit of a concrete corpus passes it. -/
theorem search_company_filter_witness :
    (mkHit 0 0 (storedMetaOf (exChunk 5) 0)).company_id = some 5 :=
  search_company_filter trainedOne annOne 10 5 none none (by decide)
    (mkHit 0 0 (storedMetaOf (exChunk 5) 0)) (by decide)

/-- Claim C4 (counterexample): with filter value 0 the Python truthiness
test disables the filter, and a hit of company 5 is returned, refuting
"never returns a hit whose metadata company id differs from the filter
value" for the value 0. -/
theorem search_company_filter_zero_cex :
    ((trainedOne.search annOne 10 (some 0) none none).map fun h => h.company_id)
        = [some 5] ∧
    some (5 : Int) ≠ some (0 : Int) := by
  constructor
  · rfl
  · decide

/-- Claim C2 (amended): while vectors sit only in the pending buffer the
ANN structure holds zero vectors and `search` returns the empty list for
every oracle, `k` and filter — the pending state is not searchable, so the
scenario's company-1 query returns 0 hits, not 2. -/
theorem search_empty_when_no_vectors (s : FAISSIndex) (ann : Nat → List (ℚ × Int))
    (k : Nat) (fc : Option Int) (ft : Option String) (fd : Option Int)
    (h : s.ntotal = 0) : s.search ann k fc ft fd = [] := by
  unfold FAISSIndex.search
  rw [if_pos h]

/-- Claim C2 (witness): the scenario state (three pending one-chunk
filings for companies 1, 2, 1) has `ntotal = 0` and its company-1 search
returns the empty list. -/
theorem search_empty_when_no_vectors_witness :
    scenario3.search (fun _ => []) 10 (some 1) none none = [] :=
  search_empty_when_no_vectors scenario3 (fun _ => []) 10 (some 1) none none
    (by decide)

/-- Claim C2 (counterexample): in the spec's scenario A the index is still
Untrained with all three vectors pending, and the company-1 search returns
0 hits, not the claimed 2. -/
theorem search_pending_scenario_cex :
    scenario3.is_trained = false ∧
    scenario3.pending_chunks.length = 3 ∧
    (scenario3.search (fun _ => []) 10 (some 1) none none).length ≠ 2 := by
  refine ⟨rfl, rfl, ?_⟩
  decide

/-- Claim C6: calling `save_index` with vectors still pending, or with the
underlying structure untrained, returns normally and writes nothing — the
disk keeps exactly its previous artifacts. -/
theorem save_index_untrained_noop (s : FAISSIndex) (d : Disk) :
    (s.is_trained = false → s.save_index d = d) ∧
    (s.pending_embeddings ≠ [] → s.save_index d = d) := by
  constructor
  · intro h
    unfold FAISSIndex.save_index
    by_cases hp : s.pending_embeddings.isEmpty
    · rw [if_neg (by simp [hp]), if_pos h]
    · rw [if_pos (by simp_all)]
  · intro h
    unfold FAISSIndex.save_index
    rw [if_pos (by simp_all)]

/-- Claim C6 (witness): saving the untrained scenario state over a
previously persisted disk leaves that disk unchanged. -/
theorem save_index_untrained_noop_witness :
    scenario3.save_index (Disk.mk (some (7, true)) (some []) (some ([], 7)))
      = Disk.mk (some (7, true)) (some []) (some ([], 7)) :=
  (save_index_untrained_noop scenario3 _).1 (by decide)

/-- Claim C10: when the embedding count differs from the chunk count,
`add_embeddings` raises `ValueError` before any mutation, so the paired
state is exactly the original one — ANN fields, both maps, `next_id` and
the pending buffers included. -/
theorem add_embeddings_length_mismatch (s : FAISSIndex) (e : List Vec)
    (c : List Chunk) (h : e.length ≠ c.length) :
    s.add_embeddings e c =
      (s, .error "Number of embeddings must match number of chunks") := by
  unfold FAISSIndex.add_embeddings
  rw [if_pos h]

/-- Claim C10 (witness): two embeddings against one chunk raise and leave
the fresh state untouched. -/
theorem add_embeddings_length_mismatch_witness :
    (initIndex 384 true 8).add_embeddings [[1], [2]] [exChunk 1] =
      (initIndex 384 true 8,
       .error "Number of embeddings must match number of chunks") :=
  add_embeddings_length_mismatch (initIndex 384 true 8) [[1], [2]] [exChunk 1]
    (by decide)

/-- Claim C5: below the training minimum an untrained index buffers the
inputs and returns no ids; the call that reaches the minimum trains the
codebook exactly once on the single batch of all pending vectors (ghost
trace grows by one entry holding their concatenation), commits every
pending chunk's metadata and position in one pass, adds all pending
vectors, and returns the ids of all pending chunks; a trained index
assigns and returns ids immediately.  The key-freshness hypotheses hold in
every reachable state, where assigned keys are always below `next_id`. -/
theorem add_embeddings_training_protocol (s : FAISSIndex) (e : List Vec)
    (c : List Chunk) (hlen : e.length = c.length)
    (hm : ∀ p ∈ s.metadata, p.1 < s.next_id)
    (hi : ∀ p ∈ s.id_to_idx, p.1 < s.next_id) :
    (s.is_trained = false →
      (((s.pending_embeddings ++ [e]).map List.length).sum <
          min_train_points s.use_pq s.embedding_dim →
        s.add_embeddings e c =
          ({ s with pending_embeddings := s.pending_embeddings ++ [e],
                    pending_chunks := s.pending_chunks ++ c }, .ok [])) ∧
      (min_train_points s.use_pq s.embedding_dim ≤
          ((s.pending_embeddings ++ [e]).map List.length).sum →
        s.add_embeddings e c =
          ({ s with
              is_trained := true,
              train_calls := s.train_calls ++ [(s.pending_embeddings ++ [e]).flatten],
              pending_embeddings := [],
              pending_chunks := [],
              metadata := s.metadata ++ committedMeta s.next_id 0 (s.pending_chunks ++ c),
              id_to_idx := s.id_to_idx ++ committedIdx s.next_id 0 (s.pending_chunks ++ c),
              next_id := s.next_id + (s.pending_chunks ++ c).length,
              ntotal := s.ntotal + ((s.pending_embeddings ++ [e]).flatten).length },
           .ok (List.range' s.next_id (s.pending_chunks ++ c).length)))) ∧
    (s.is_trained = true →
      s.add_embeddings e c =
        ({ s with
            metadata := s.metadata ++ committedMeta s.next_id s.ntotal c,
            id_to_idx := s.id_to_idx ++ committedIdx s.next_id s.ntotal c,
            next_id := s.next_id + c.length,
            ntotal := s.ntotal + e.length },
         .ok (List.range' s.next_id c.length))) := by
  have hne : ¬ e.length ≠ c.length := fun hcon => hcon hlen
  refine ⟨fun htr => ⟨fun hlt => ?_, fun hge => ?_⟩, fun htr => ?_⟩
  · unfold FAISSIndex.add_embeddings
    rw [if_neg hne, if_pos htr]
    dsimp only
    rw [if_pos hlt]
  · unfold FAISSIndex.add_embeddings
    rw [if_neg hne, if_pos htr]
    dsimp only
    rw [if_neg (not_lt.mpr hge),
      commitLoop_eq (s.pending_chunks ++ c) s.metadata s.id_to_idx s.next_id 0 hm hi]
  · unfold FAISSIndex.add_embeddings
    rw [if_neg hne, if_neg (by rw [htr]; simp)]
    dsimp only
    rw [commitLoop_eq c s.metadata s.id_to_idx s.next_id s.ntotal hm hi]

/-- Claim C5 (witness): a single below-minimum add on a fresh index
buffers the vector and chunk and returns no ids. -/
theorem add_embeddings_training_protocol_witness :
    (initIndex 384 true 8).add_embeddings [[1]] [exChunk 1] =
      ({ initIndex 384 true 8 with
          pending_embeddings := [[[1]]],
          pending_chunks := [exChunk 1] }, .ok []) :=
  ((add_embeddings_training_protocol (initIndex 384 true 8) [[1]] [exChunk 1]
      (by decide) (by simp [initIndex]) (by simp [initIndex])).1 rfl).1 (by decide)

/-- `remove_company_filings` never changes `next_id`. -/
theorem remove_company_filings_next_id (s : FAISSIndex) (cid : Int) :
    ((s.remove_company_filings cid).1).next_id = s.next_id :=
  removeLoop_next_id _ s

/-- The ids collected over any run are pairwise increasing and all bounded
below by the starting `next_id`. -/
theorem runOps_ids_facts (ops : List Op) :
    ∀ s : FAISSIndex,
      ((runOps s ops).2.flatten).Pairwise (fun a b => a < b) ∧
      ∀ i ∈ (runOps s ops).2.flatten, s.next_id ≤ i := by
  induction ops with
  | nil => intro s; simp [runOps]
  | cons op rest ih =>
    intro s
    cases op with
    | add e c =>
      rcases hA : s.add_embeddings e c with ⟨s1, r⟩
      cases r with
      | error msg =>
        simp [runOps, hA]
      | ok ids =>
        obtain ⟨hids, hnext⟩ := add_embeddings_ok_ids s e c s1 ids hA
        obtain ⟨hpw, hlb⟩ := ih s1
        simp only [runOps, hA, List.flatten_cons]
        constructor
        · rw [List.pairwise_append]
          refine ⟨?_, hpw, ?_⟩
          · rw [hids]; exact List.pairwise_lt_range' _ _
          · intro a ha b hb
            rw [hids] at ha
            have ha2 := (List.mem_range'_1.mp ha).2
            have hb2 := hlb b hb
            omega
        · intro i hi
          rcases List.mem_append.mp hi with h | h
          · rw [hids] at h
            exact (List.mem_range'_1.mp h).1
          · have := hlb i h
            omega
    | remove cid =>
      rcases hR : s.remove_company_filings cid with ⟨s1, r⟩
      have hnext : s1.next_id = s.next_id := by
        have := remove_company_filings_next_id s cid
        rw [hR] at this
        exact this
      cases r with
      | error msg => simp [runOps, hR]
      | ok u =>
        obtain ⟨hpw, hlb⟩ := ih s1
        simp only [runOps, hR]
        exact ⟨hpw, fun i hi => hnext ▸ hlb i hi⟩

/-- Claim C7: across any sequence of `add_embeddings` and
`remove_company_filings` calls in one index lifetime — including the
untrained→trained transition — the concatenation of all returned id lists,
in call order, is strictly increasing: ids follow input order within a
call, never decrease across calls, and are never reused. -/
theorem runOps_ids_strictly_increasing (s : FAISSIndex) (ops : List Op) :
    ((runOps s ops).2.flatten).Pairwise (fun a b => a < b) :=
  (runOps_ids_facts ops s).1

/-- Claim C3 (witness): on a text with no section headers the tiling
theorem instantiates to the sentinel full-document span. -/
theorem identify_sections_tiling_witness :
    identify_sections ("no headers here".toList) =
      [("FULL_DOCUMENT", 0, ("no headers here".toList).length)] :=
  (identify_sections_tiling ("no headers here".toList)).2.2 (by rfl)

/-- Claim C8: under the reachable-state invariants (duplicate-free keys,
metadata keys present in the id→index map), removing a company succeeds
and removes exactly that company's ids from the metadata map and the
id→index map; the ANN vector count, `next_id`, training flag, pending
buffers and every other company's entries are untouched; and for every
oracle, `k` and filters, no hit of a subsequent search carries the removed
company id. -/
theorem remove_company_filings_frame (s : FAISSIndex) (cid : Int)
    (hndm : (s.metadata.map fun p => p.1).Nodup)
    (hndi : (s.id_to_idx.map fun p => p.1).Nodup)
    (hsub : ∀ p ∈ s.metadata, ∃ q ∈ s.id_to_idx, q.1 = p.1) :
    (s.remove_company_filings cid).2 = Except.ok () ∧
    ((s.remove_company_filings cid).1).metadata =
      s.metadata.filter (fun p => !(p.2.company_id == some cid)) ∧
    ((s.remove_company_filings cid).1).id_to_idx =
      s.id_to_idx.filter (fun p =>
        decide (p.1 ∉ ((s.metadata.filter fun p =>
          p.2.company_id == some cid).map fun p => p.1))) ∧
    ((s.remove_company_filings cid).1).ntotal = s.ntotal ∧
    ((s.remove_company_filings cid).1).next_id = s.next_id ∧
    ((s.remove_company_filings cid).1).is_trained = s.is_trained ∧
    ((s.remove_company_filings cid).1).pending_embeddings = s.pending_embeddings ∧
    ((s.remove_company_filings cid).1).pending_chunks = s.pending_chunks ∧
    ((s.remove_company_filings cid).1).train_calls = s.train_calls ∧
    ∀ (ann : Nat → List (ℚ × Int)) (k : Nat) (fc : Option Int)
      (ft : Option String) (fd : Option Int),
      ∀ hit ∈ ((s.remove_company_filings cid).1).search ann k fc ft fd,
        ¬ hit.company_id = some cid := by
  have hR : ∀ id ∈ ((s.metadata.filter fun p =>
      p.2.company_id == some cid).map fun p => p.1),
      (∃ p ∈ s.metadata, p.1 = id) ∧ ∃ p ∈ s.id_to_idx, p.1 = id := by
    intro id hid
    rw [List.mem_map] at hid
    obtain ⟨p, hp, hp1⟩ := hid
    have hpm := (List.mem_filter.mp hp).1
    refine ⟨⟨p, hpm, hp1⟩, ?_⟩
    obtain ⟨q, hq, hq1⟩ := hsub p hpm
    exact ⟨q, hq, by rw [hq1, hp1]⟩
  have hndR : ((s.metadata.filter fun p =>
      p.2.company_id == some cid).map fun p => p.1).Nodup :=
    nodup_keys_filter s.metadata _ hndm
  have hspec := removeLoop_spec
    ((s.metadata.filter fun p => p.2.company_id == some cid).map fun p => p.1)
    s hndm hndi hndR hR
  have hrm : s.remove_company_filings cid =
      ({ s with
          metadata := s.metadata.filter fun p =>
            decide (p.1 ∉ ((s.metadata.filter fun p =>
              p.2.company_id == some cid).map fun p => p.1)),
          id_to_idx := s.id_to_idx.filter fun p =>
            decide (p.1 ∉ ((s.metadata.filter fun p =>
              p.2.company_id == some cid).map fun p => p.1)) }, .ok ()) := by
    unfold FAISSIndex.remove_company_filings
    exact hspec
  have hmetaeq : (s.metadata.filter fun p =>
      decide (p.1 ∉ ((s.metadata.filter fun p =>
        p.2.company_id == some cid).map fun p => p.1))) =
      s.metadata.filter fun p => !(p.2.company_id == some cid) := by
    apply List.filter_congr
    intro x hx
    by_cases hc : x.2.company_id = some cid
    · have hmemR : x.1 ∈ ((s.metadata.filter fun p =>
          p.2.company_id == some cid).map fun p => p.1) :=
        List.mem_map_of_mem _ (List.mem_filter.mpr ⟨hx, by simp [hc]⟩)
      simp [hmemR, hc]
    · have hmemR : x.1 ∉ ((s.metadata.filter fun p =>
          p.2.company_id == some cid).map fun p => p.1) := by
        intro hcon
        rw [List.mem_map] at hcon
        obtain ⟨q, hq, hq1⟩ := hcon
        have hqm := (List.mem_filter.mp hq).1
        have hqc := (List.mem_filter.mp hq).2
        have : q = x := List.inj_on_of_nodup_map hndm hqm hx hq1
        rw [this] at hqc
        simp only [beq_iff_eq] at hqc
        exact hc hqc
      simp [hmemR, hc]
  refine ⟨by rw [hrm], by rw [hrm]; exact hmetaeq, by rw [hrm], by rw [hrm],
    by rw [hrm], by rw [hrm], by rw [hrm], by rw [hrm], by rw [hrm], ?_⟩
  intro ann k fc ft fd hit hmem
  rw [hrm] at hmem
  unfold FAISSIndex.search at hmem
  split at hmem
  · exact absurd hmem (by simp)
  · rcases searchLoop_mem _ k fc ft fd _ [] hit hmem with h | h
    · exact absurd h (by simp)
    · obtain ⟨cid2, m, dist, hlook, _, _, _, hhit⟩ := h
      have hentry := lookupMeta_mem _ cid2 m hlook
      dsimp only at hentry
      rw [hmetaeq] at hentry
      have hpred := (List.mem_filter.mp hentry).2
      simp only [Bool.not_eq_true', beq_eq_false_iff_ne, ne_eq] at hpred
      rw [hhit]
      show ¬ m.company_id = some cid
      exact hpred

/-- Claim C8 (witness): removing company 5 from the one-chunk trained
corpus succeeds, leaves the vector count at 1 and `next_id` at 1, and
empties the metadata map of that company. -/
theorem remove_company_filings_frame_witness :
    (trainedOne.remove_company_filings 5).2 = Except.ok () ∧
    ((trainedOne.remove_company_filings 5).1).ntotal = trainedOne.ntotal ∧
    ((trainedOne.remove_company_filings 5).1).next_id = trainedOne.next_id :=
  ⟨(remove_company_filings_frame trainedOne 5 (by decide) (by decide) (by decide)).1,
   (remove_company_filings_frame trainedOne 5 (by decide) (by decide) (by decide)).2.2.2.1,
   (remove_company_filings_frame trainedOne 5 (by decide) (by decide) (by decide)).2.2.2.2.1⟩

/-- Claim C9 (amended): when reranking is requested and strictly more than
`k` candidates were retrieved, the returned list is the blended-score
descending sort truncated to `k`; every reranked candidate's blended score
is exactly `0.5·1/(1+distance) + 0.3·(matched query-term fraction) +
0.2·(10 if the exact phrase occurs, else 0)`; the reranked list is sorted
by that score descending and is a permutation of the scored candidates. -/
theorem rerank_blended_sorted (query : List Char) (results : List EnhancedResult)
    (k : Nat) (_hw : queryWordSet query ≠ []) (hk : k < results.length) :
    searchFinalize query results k true = (rerank_results query results).take k ∧
    (∀ x ∈ rerank_results query results,
      x.rerank_score = some
        ((1 / (1 + x.hit.score)) * (5 / 10)
          + ((wordScore (queryWordSet query) (toLowerL x.text) : ℚ) /
              ((queryWordSet query).length : ℚ)) * (3 / 10)
          + (if substrIn (toLowerL query) (toLowerL x.text) = true then (10 : ℚ) else 0)
              * (2 / 10))) ∧
    (rerank_results query results).Pairwise
      (fun a b => b.rerank_score.getD 0 ≤ a.rerank_score.getD 0) ∧
    (rerank_results query results).Perm (results.map (scoreWith query)) := by
  refine ⟨?_, ?_, ?_, ?_⟩
  · unfold searchFinalize
    rw [if_pos (by simp [hk])]
  · intro x hx
    have hx2 : x ∈ results.map (scoreWith query) :=
      (sortByDesc_perm _ _).mem_iff.mp hx
    rw [List.mem_map] at hx2
    obtain ⟨pre, _, hpre⟩ := hx2
    subst hpre
    rfl
  · exact sortByDesc_pairwise _ _
  · exact sortByDesc_perm _ _

/-- Claim C9 (witness): two candidates, `k = 1`, a two-word query. -/
theorem rerank_blended_sorted_witness :
    searchFinalize ("fda approval".toList)
        [⟨mkHit 0 0 (storedMetaOf (exChunk 5) 0), "nothing".toList, none⟩,
         ⟨mkHit 1 1 (storedMetaOf (exChunk 5) 1), "fda approval now".toList, none⟩] 1 true =
      (rerank_results ("fda approval".toList)
        [⟨mkHit 0 0 (storedMetaOf (exChunk 5) 0), "nothing".toList, none⟩,
         ⟨mkHit 1 1 (storedMetaOf (exChunk 5) 1), "fda approval now".toList, none⟩]).take 1 :=
  (rerank_blended_sorted ("fda approval".toList)
    [⟨mkHit 0 0 (storedMetaOf (exChunk 5) 0), "nothing".toList, none⟩,
     ⟨mkHit 1 1 (storedMetaOf (exChunk 5) 1), "fda approval now".toList, none⟩]
    1 (by decide) (by decide)).1

/-- Claim C9 (counterexample): with `rerank=True` but no more than `k`
candidates, the reranking pass is skipped entirely — the returned
candidate carries no blended score at all, refuting "every candidate's
blended score equals the weighted formula" for that case. -/
theorem rerank_skipped_cex :
    searchFinalize ("fda".toList)
        [⟨mkHit 0 0 (storedMetaOf (exChunk 5) 0), "fda data".toList, none⟩] 5 true =
      [⟨mkHit 0 0 (storedMetaOf (exChunk 5) 0), "fda data".toList, none⟩] ∧
    ((searchFinalize ("fda".toList)
        [⟨mkHit 0 0 (storedMetaOf (exChunk 5) 0), "fda data".toList, none⟩] 5 true).map
      fun r => r.rerank_score) = [none] := by
  constructor
  · rfl
  · rfl

/-! ### Claim C1: round-trip rehydration -/

/-- The raw filing text of the failing input: forty repetitions of
`"ab  "` (double space), 160 characters, whose cleaned form (119
characters) is shorter than the raw form. -/
def c1_raw : List Char := (List.replicate 40 [ 'a', 'b', ' ', ' ' ]).flatten

def c1_base : Chunk :=
  { file_path := some "data/filings/acme.txt.gz", filing_id := some 7,
    company_id := some 3, filing_type := some "10-K" }

/-- The chunks the document processor produces from the raw filing (one
chunk, offsets [0, 119) into the cleaned text). -/
def c1_chunks : List Chunk := chunk_text defaultProcessor c1_raw c1_base

/-- The index state after committing that chunk to a trained index. -/
def c1_state : FAISSIndex :=
  (({ initIndex 384 true 8 with is_trained := true }).add_embeddings
    [[1]] c1_chunks).1

/-- The search hits for an oracle returning the stored vector. -/
def c1_hits : List SearchHit := c1_state.search annOne 10 none none none

/-- The file system holding the original compressed filing. -/
def c1_fs : FileSys := [("data/filings/acme.txt.gz", c1_raw)]

/-- The value the claim says `load_chunk_text` returns: the slice
`[char_start, char_end)` of the cleaned document, compared after applying
the processor's cleaning transform.  This definition follows the claim's
words, for comparison with the source-translated `load_chunk_text`. -/
def claimedRehydration (raw : List Char) (h : SearchHit) : List Char :=
  clean_text (pySlice (clean_text raw) (h.char_start.getD 0)
    (h.char_end.getD ((clean_text raw).length : Int)))

set_option maxRecDepth 100000

/-- Claim C1 (failing-input evaluation): the processor chunks the filing
into one chunk with offsets [0, 119) into the *cleaned* text, the chunk
comes back as a search hit, but `load_chunk_text` slices the *raw*
reloaded filing with those offsets before cleaning, returning an
89-character text instead of the 119-character cleaned-document slice —
the round-trip equation fails. -/
theorem load_chunk_text_roundtrip_fails :
    c1_chunks.length = 1 ∧
    (c1_hits.map fun h => h.char_start) = [some 0] ∧
    (c1_hits.map fun h => h.char_end) = [some 119] ∧
    ((c1_hits.map (load_chunk_text c1_fs)).map List.length) = [89] ∧
    ((c1_hits.map (claimedRehydration c1_raw)).map List.length) = [119] ∧
    (c1_hits.map (load_chunk_text c1_fs)) ≠
      (c1_hits.map (claimedRehydration c1_raw)) := by
  refine ⟨rfl, rfl, rfl, rfl, rfl, ?_⟩
  intro hcon
  have hlen := congrArg (fun l => l.map List.length) hcon
  dsimp only at hlen
  have h89 : ((c1_hits.map (load_chunk_text c1_fs)).map List.length) = [89] := rfl
  have h119 : ((c1_hits.map (claimedRehydration c1_raw)).map List.length) = [119] := rfl
  rw [h89, h119] at hlen
  exact absurd hlen (by decide)
